import Mathlib

/-!
# Rotary picker of `src/mode.cpp`: angular particle, snap index, debounce

A shallow embedding of `src/mode.cpp`.

* C++ `float` values are embedded as rational numbers and every arithmetic
  operation is exact: rounding, infinities and NaN are outside the model.
  Decimal literals (`0.02f`, `0.2f`, ...) denote their decimal value.
* `M_PI` is the `<cmath>` constant, taken with the twenty decimals its
  definition spells out; `TWO_PI` is computed from it as in the source.
  Wherever a statement of the development says "2π" it means `TWO_PI`.
* `std::chrono` time points are rational numbers of milliseconds.
* The `choreograph` timeline is an external library. The embedding keeps the
  sequence of ramp requests `apply(&output).then<RampTo>(target, duration)`
  the program makes on it, oldest first; drawing calls are left out.
-/

namespace OttoMenu

/-! ## The `<cmath>` functions the program calls -/

namespace std

/-- Conversion of a floating value to `int`: the fractional part is dropped
(truncation toward zero). -/
def trunc (x : ℚ) : ℤ := if 0 ≤ x then ⌊x⌋ else -⌊-x⌋

/-- The C `fmod`: `x - n * y` where `n` is `x / y` truncated toward zero, so a
non-zero result has the sign of `x`. -/
def fmod (x y : ℚ) : ℚ := x - (trunc (x / y) : ℚ) * y

/-- The C `round`: nearest integer, halves away from zero. -/
def round (x : ℚ) : ℚ := if 0 ≤ x then ((⌊x + 1 / 2⌋ : ℤ) : ℚ) else -((⌊-x + 1 / 2⌋ : ℤ) : ℚ)

/-- The C `abs` on a floating value. -/
def abs (x : ℚ) : ℚ := |x|

end std

/-! ## Constants -/

/-- The `<cmath>` constant `M_PI` (`3.14159265358979323846`). -/
def M_PI : ℚ := 314159265358979323846 / 100000000000000000000

/-- `static const float TWO_PI = M_PI * 2.0f;` -/
def TWO_PI : ℚ := M_PI * 2

/-- `static const vec3 tileDefaultColor = { 0, 1, 1 };` -/
def tileDefaultColor : ℚ × ℚ × ℚ := (0, 1, 1)

/-! ## `struct AngularParticle` -/

/-- `struct AngularParticle` with its three `float` fields. -/
structure AngularParticle where
  angle : ℚ := 0
  anglePrev : ℚ := 0
  friction : ℚ := 0
deriving DecidableEq

namespace AngularParticle

/-- `void AngularParticle::step()`. -/
def step (p : AngularParticle) : AngularParticle :=
  let vel := (p.angle - p.anglePrev) * (1 - p.friction)
  let anglePrev := p.angle
  let angle := p.angle + vel
  let wrappedAngle := std.fmod (angle + TWO_PI) TWO_PI
  if wrappedAngle ≠ angle then
    { p with anglePrev := anglePrev + (wrappedAngle - angle), angle := wrappedAngle }
  else
    { p with anglePrev := anglePrev, angle := angle }

/-- `void AngularParticle::spring(float targetAngle, float power)`. -/
def spring (p : AngularParticle) (targetAngle power : ℚ) : AngularParticle :=
  let angleDiff := std.abs (targetAngle - p.angle)
  let targetAngle :=
    if std.abs (p.angle - (targetAngle + TWO_PI)) < angleDiff then targetAngle + TWO_PI
    else targetAngle
  { p with angle := p.angle + (targetAngle - p.angle) * power }

/-- The velocity `step()` derives from the two stored angles. -/
def velocity (p : AngularParticle) : ℚ := p.angle - p.anglePrev

end AngularParticle

/-! ## The timeline, the tiles and the mode data -/

/-- The `Output` of a tile that a ramp animates, together with the value it
ramps to: `Tile::color` takes a `vec3`, `Tile::scale` a `float`. -/
inductive Target where
  | color (v : ℚ × ℚ × ℚ)
  | scale (v : ℚ)
deriving DecidableEq

/-- One request `timeline.apply(&tiles[tile].output).then<RampTo>(target, duration)`.
The index is kept as the integer the program computed. -/
structure RampTo where
  tile : ℤ
  target : Target
  duration : ℚ
deriving DecidableEq

/-- Whether the request animates `Tile::color` (otherwise `Tile::scale`). -/
def RampTo.onColor (r : RampTo) : Bool :=
  match r.target with
  | .color _ => true
  | .scale _ => false

/-- `struct ModeData`. The `timeline` field is the list of ramp requests made
so far, oldest first; the six tiles are addressed by index in those requests. -/
structure ModeData where
  timeline : List RampTo := []
  wheel : AngularParticle := {}
  lastFrameTime : ℚ := 0
  lastCrankTime : ℚ := 0
deriving DecidableEq

/-- The static variables of the file: `data` and `wheelIsMoving`. -/
structure Mode where
  data : ModeData := {}
  wheelIsMoving : Bool := false
deriving DecidableEq

/-- `int init()`, called at time `now`. -/
def init (m : Mode) (now : ℚ) : Mode :=
  { m with data := { m.data with wheel := { m.data.wheel with friction := 1 / 5 },
                                 lastFrameTime := now } }

/-- The expression of `update()` that picks the tile:
`int tileIndex = std::fmod(std::round(angle / TWO_PI * 6.0f), 6.0f);` -/
def tileIndex (angle : ℚ) : ℤ :=
  std.trunc (std.fmod (std.round (angle / TWO_PI * 6)) 6)

/-- The two ramps `update()` requests on the tile it picked. -/
def highlight (tileIndex : ℤ) : List RampTo :=
  [⟨tileIndex, .color (1, 1, 0), 1 / 10⟩, ⟨tileIndex, .scale 1, 1 / 10⟩]

/-- The two ramps `rotary_changed()` requests on one tile of its loop. -/
def dim (tile : ℤ) : List RampTo :=
  [⟨tile, .color tileDefaultColor, 1 / 5⟩, ⟨tile, .scale (7 / 10), 1 / 5⟩]

/-- `int update()`, with `frameTime` the clock reading it takes.
`timeline.step(dt)` advances the ramps inside the external library and makes no
request, so the recorded requests are unchanged by it. -/
def update (m : Mode) (frameTime : ℚ) : Mode :=
  let wheel := m.data.wheel.step
  let timeSinceLastCrank := frameTime - m.data.lastCrankTime
  if timeSinceLastCrank > 300 then
    let tileIndex := tileIndex wheel.angle
    { data := { m.data with
                  timeline := m.data.timeline ++ highlight tileIndex,
                  wheel := wheel.spring ((tileIndex : ℚ) / 6 * TWO_PI) (1 / 5),
                  lastFrameTime := frameTime },
      wheelIsMoving := false }
  else
    { m with data := { m.data with wheel := wheel, lastFrameTime := frameTime } }

/-- `int rotary_changed(int delta)`, with `now` the clock reading it takes. -/
def rotary_changed (m : Mode) (delta : ℤ) (now : ℚ) : Mode :=
  let wheel := { m.data.wheel with angle := m.data.wheel.angle + (delta : ℚ) * (1 / 50) }
  if !m.wheelIsMoving then
    { data := { m.data with
                  timeline := (List.range 6).foldl (fun tl i => tl ++ dim (i : ℤ)) m.data.timeline,
                  wheel := wheel,
                  lastCrankTime := now },
      wheelIsMoving := true }
  else
    { m with data := { m.data with wheel := wheel, lastCrankTime := now } }

/-- A run of `update()` frames taken at the listed clock readings. -/
def frames (m : Mode) (times : List ℚ) : Mode := times.foldl update m

/-- The ramp most recently requested on one output of one tile, if any. -/
def lastRamp (timeline : List RampTo) (tile : ℤ) (onColor : Bool) : Option RampTo :=
  timeline.reverse.find? (fun r => decide (r.tile = tile) && (r.onColor == onColor))


/-! ## Basic facts about the `<cmath>` functions -/

theorem TWO_PI_pos : 0 < TWO_PI := by
  norm_num [TWO_PI, M_PI]

theorem trunc_of_nonneg {x : ℚ} (h : 0 ≤ x) : std.trunc x = ⌊x⌋ := by
  simp [std.trunc, h]

theorem fmod_nonneg {x y : ℚ} (hx : 0 ≤ x) (hy : 0 < y) : 0 ≤ std.fmod x y := by
  have hq : 0 ≤ x / y := div_nonneg hx hy.le
  have hfl : ((⌊x / y⌋ : ℤ) : ℚ) ≤ x / y := Int.floor_le _
  have h1 : ((⌊x / y⌋ : ℤ) : ℚ) * y ≤ x := by
    have := mul_le_mul_of_nonneg_right hfl hy.le
    rwa [div_mul_cancel₀ x hy.ne'] at this
  simp only [std.fmod, trunc_of_nonneg hq]
  linarith

theorem fmod_lt {x y : ℚ} (hx : 0 ≤ x) (hy : 0 < y) : std.fmod x y < y := by
  have hq : 0 ≤ x / y := div_nonneg hx hy.le
  have hfl : x / y < ((⌊x / y⌋ : ℤ) : ℚ) + 1 := Int.lt_floor_add_one _
  have h1 : x < (((⌊x / y⌋ : ℤ) : ℚ) + 1) * y := by
    have := mul_lt_mul_of_pos_right hfl hy
    rwa [div_mul_cancel₀ x hy.ne'] at this
  simp only [std.fmod, trunc_of_nonneg hq]
  linarith

/-- An angle already inside `[0, y)` is returned unchanged by the wrap
expression `fmod(a + y, y)`. -/
theorem fmod_add_self {a y : ℚ} (h0 : 0 ≤ a) (h1 : a < y) : std.fmod (a + y) y = a := by
  have hy : 0 < y := lt_of_le_of_lt h0 h1
  have hq : 0 ≤ (a + y) / y := div_nonneg (by linarith) hy.le
  have hfloor : ⌊(a + y) / y⌋ = 1 := by
    rw [Int.floor_eq_iff]
    constructor
    · rw [le_div_iff₀ hy]; push_cast; linarith
    · rw [div_lt_iff₀ hy]; push_cast; linarith
  simp only [std.fmod, trunc_of_nonneg hq, hfloor]
  push_cast
  ring

/-- What `step()` leaves in `angle`: always the wrapped value. -/
theorem step_angle (p : AngularParticle) :
    p.step.angle =
      std.fmod (p.angle + (p.angle - p.anglePrev) * (1 - p.friction) + TWO_PI) TWO_PI := by
  unfold AngularParticle.step
  dsimp only
  split_ifs with h
  · rfl
  · exact (not_not.mp h).symm

/-- When the advanced angle is already inside `[0, 2π)` the wrap changes
nothing. -/
theorem step_of_no_wrap (p : AngularParticle)
    (h0 : 0 ≤ p.angle + (p.angle - p.anglePrev) * (1 - p.friction))
    (h1 : p.angle + (p.angle - p.anglePrev) * (1 - p.friction) < TWO_PI) :
    p.step = { p with anglePrev := p.angle,
                      angle := p.angle + (p.angle - p.anglePrev) * (1 - p.friction) } := by
  unfold AngularParticle.step
  dsimp only
  rw [fmod_add_self h0 h1]
  simp

theorem step_friction (p : AngularParticle) : p.step.friction = p.friction := by
  unfold AngularParticle.step
  dsimp only
  split_ifs <;> rfl

theorem step_velocity (p : AngularParticle) :
    p.step.velocity = p.velocity * (1 - p.friction) := by
  unfold AngularParticle.step AngularParticle.velocity
  dsimp only
  split_ifs with h
  · ring
  · ring

/-! ## Claims about `AngularParticle` -/

/-- C1: for a particle with friction in `[0, 1]` whose advanced angle
`angle + (angle - anglePrev) * (1 - friction)` is not less than `-2π`, the
angle after `step()` lies in `[0, 2π)`. -/
theorem C1_step_angle_in_range (p : AngularParticle)
    (hf0 : 0 ≤ p.friction) (hf1 : p.friction ≤ 1)
    (hadv : -TWO_PI ≤ p.angle + (p.angle - p.anglePrev) * (1 - p.friction)) :
    0 ≤ p.step.angle ∧ p.step.angle < TWO_PI := by
  rw [step_angle]
  have hx : 0 ≤ p.angle + (p.angle - p.anglePrev) * (1 - p.friction) + TWO_PI := by linarith
  exact ⟨fmod_nonneg hx TWO_PI_pos, fmod_lt hx TWO_PI_pos⟩

/-- C2 (counterexample): from angle `6` with target `2` and power `1`, both
angles being inside `[0, 2π)`, `spring` leaves the angle at `2 + 2π`, which is
not below `2π`. -/
theorem C2_spring_leaves_range :
    (0 : ℚ) ≤ 6 ∧ (6 : ℚ) < TWO_PI ∧ (0 : ℚ) ≤ 2 ∧ (2 : ℚ) < TWO_PI ∧
      (0 : ℚ) < 1 ∧ (1 : ℚ) ≤ 1 ∧
      ¬ ((AngularParticle.spring ⟨6, 6, 1 / 5⟩ 2 1).angle < TWO_PI) := by
  norm_num [AngularParticle.spring, std.abs, TWO_PI, M_PI, abs_lt, abs_of_nonneg, abs_of_neg]

/-- C2 (amended): for angle and target in `[0, 2π)` and power in `(0, 1]`, the
angle after `spring` lies in `[0, 3π)`, and it lies in `[0, 2π)` whenever the
target is at most `π` behind the angle (`angle - targetAngle ≤ π`). -/
theorem C2_spring_angle_bounds (p : AngularParticle) (targetAngle power : ℚ)
    (ha0 : 0 ≤ p.angle) (ha1 : p.angle < TWO_PI)
    (ht0 : 0 ≤ targetAngle) (ht1 : targetAngle < TWO_PI)
    (hp0 : 0 < power) (hp1 : power ≤ 1) :
    0 ≤ (p.spring targetAngle power).angle ∧
      (p.spring targetAngle power).angle < TWO_PI + TWO_PI / 2 ∧
      (p.angle - targetAngle ≤ TWO_PI / 2 → (p.spring targetAngle power).angle < TWO_PI) := by
  have hT := TWO_PI_pos
  have hneg : p.angle - (targetAngle + TWO_PI) < 0 := by linarith
  unfold AngularParticle.spring std.abs
  dsimp only
  rw [abs_of_neg hneg]
  split_ifs with h
  · have hlt : targetAngle < p.angle := by
      by_contra hge
      rw [abs_of_nonneg (by linarith)] at h
      linarith
    rw [abs_of_neg (by linarith)] at h
    refine ⟨?_, ?_, ?_⟩
    · nlinarith [mul_nonneg (by linarith : (0 : ℚ) ≤ targetAngle + TWO_PI - p.angle) hp0.le]
    · nlinarith [mul_nonneg (by linarith : (0 : ℚ) ≤ targetAngle + TWO_PI - p.angle)
        (by linarith : (0 : ℚ) ≤ 1 - power)]
    · intro hle
      linarith
  · refine ⟨?_, ?_, ?_⟩
    · nlinarith [mul_nonneg ha0 (by linarith : (0 : ℚ) ≤ 1 - power), mul_nonneg ht0 hp0.le]
    · nlinarith [mul_nonneg (by linarith : (0 : ℚ) ≤ TWO_PI - p.angle)
        (by linarith : (0 : ℚ) ≤ 1 - power),
        mul_pos (by linarith : (0 : ℚ) < TWO_PI - targetAngle) hp0]
    · intro _
      nlinarith [mul_nonneg (by linarith : (0 : ℚ) ≤ TWO_PI - p.angle)
        (by linarith : (0 : ℚ) ≤ 1 - power),
        mul_pos (by linarith : (0 : ℚ) < TWO_PI - targetAngle) hp0]

/-- C4: for every particle, the velocity after `step()` is the damped velocity
before it, `angle' - anglePrev' = (angle - anglePrev) * (1 - friction)`,
whether or not the wrap changed the angle; `anglePrev` is moved from the old
angle by exactly the amount the wrap moved the advanced angle. -/
theorem C4_step_preserves_damped_velocity (p : AngularParticle) :
    p.step.angle - p.step.anglePrev = (p.angle - p.anglePrev) * (1 - p.friction) ∧
      p.step.anglePrev - p.angle =
        p.step.angle - (p.angle + (p.angle - p.anglePrev) * (1 - p.friction)) := by
  unfold AngularParticle.step
  dsimp only
  split_ifs with h
  · constructor <;> ring
  · constructor <;> ring

/-- C6: for every particle and target, `spring(targetAngle, 1.0)` leaves the
angle at `targetAngle` or at `targetAngle + 2π`: at `targetAngle + 2π` exactly
when that is strictly nearer to the starting angle, so the distance moved is
the smaller of the two distances. -/
theorem C6_spring_full_power (p : AngularParticle) (targetAngle : ℚ) :
    (p.spring targetAngle 1).angle =
        (if |p.angle - (targetAngle + TWO_PI)| < |targetAngle - p.angle|
          then targetAngle + TWO_PI else targetAngle) ∧
      ((p.spring targetAngle 1).angle = targetAngle ∨
        (p.spring targetAngle 1).angle = targetAngle + TWO_PI) ∧
      |(p.spring targetAngle 1).angle - p.angle| =
        min |targetAngle - p.angle| |targetAngle + TWO_PI - p.angle| := by
  unfold AngularParticle.spring std.abs
  dsimp only
  have hsymm : |p.angle - (targetAngle + TWO_PI)| = |targetAngle + TWO_PI - p.angle| :=
    abs_sub_comm _ _
  split_ifs with h
  · refine ⟨by ring, Or.inr (by ring), ?_⟩
    rw [hsymm] at h
    rw [min_eq_right h.le]
    congr 1
    ring
  · refine ⟨by ring, Or.inl (by ring), ?_⟩
    rw [hsymm] at h
    rw [min_eq_left (not_lt.mp h)]
    congr 1
    ring

/-! ## Repeated steps -/

theorem iterate_step_friction (p : AngularParticle) (n : ℕ) :
    (AngularParticle.step^[n] p).friction = p.friction := by
  induction n with
  | zero => rfl
  | succ n ih => rw [Function.iterate_succ_apply', step_friction, ih]

theorem iterate_step_velocity (p : AngularParticle) (n : ℕ) :
    (AngularParticle.step^[n] p).velocity = p.velocity * (1 - p.friction) ^ n := by
  induction n with
  | zero => simp
  | succ n ih =>
    rw [Function.iterate_succ_apply', step_velocity, ih, iterate_step_friction]
    ring

/-- C1 (witness): the particle at angle `6` coming from `5` with friction `0.2`. -/
theorem C1_step_angle_in_range_witness :
    0 ≤ (AngularParticle.step ⟨6, 5, 1 / 5⟩).angle ∧
      (AngularParticle.step ⟨6, 5, 1 / 5⟩).angle < TWO_PI :=
  C1_step_angle_in_range ⟨6, 5, 1 / 5⟩ (by norm_num) (by norm_num)
    (by norm_num [TWO_PI, M_PI])

/-- C2 (witness): angle `6`, target `2`, power `1`. -/
theorem C2_spring_angle_bounds_witness :
    0 ≤ (AngularParticle.spring ⟨6, 6, 1 / 5⟩ 2 1).angle ∧
      (AngularParticle.spring ⟨6, 6, 1 / 5⟩ 2 1).angle < TWO_PI + TWO_PI / 2 :=
  have h := C2_spring_angle_bounds ⟨6, 6, 1 / 5⟩ 2 1 (by norm_num) (by norm_num [TWO_PI, M_PI])
    (by norm_num) (by norm_num [TWO_PI, M_PI]) (by norm_num) (by norm_num)
  ⟨h.1, h.2.1⟩

/-! ## The snap index -/

theorem trunc_intCast (n : ℤ) : std.trunc (n : ℚ) = n := by
  unfold std.trunc
  split_ifs with h
  · exact Int.floor_intCast n
  · have : -(n : ℚ) = ((-n : ℤ) : ℚ) := by push_cast; ring
    rw [this, Int.floor_intCast]
    ring

/-- The C remainder of an integer by six, as the program then stores it in an
`int`: the sign follows the dividend. -/
theorem trunc_fmod_intCast (k : ℤ) :
    std.trunc (std.fmod (k : ℚ) 6) = if 0 ≤ k then k % 6 else -((-k) % 6) := by
  have hdiv : ∀ n : ℤ, ⌊(n : ℚ) / 6⌋ = n / 6 := by
    intro n
    have := Rat.floor_intCast_div_natCast n 6
    simpa using this
  split_ifs with hk
  · have hq : (0 : ℚ) ≤ (k : ℚ) / 6 := div_nonneg (by exact_mod_cast hk) (by norm_num)
    have hval : std.fmod (k : ℚ) 6 = ((k % 6 : ℤ) : ℚ) := by
      simp only [std.fmod, trunc_of_nonneg hq, hdiv]
      have := Int.emod_add_ediv k 6
      have hc : ((k % 6 : ℤ) : ℚ) + 6 * ((k / 6 : ℤ) : ℚ) = (k : ℚ) := by exact_mod_cast this
      linarith
    rw [hval, trunc_intCast]
  · have hk0 : k < 0 := not_le.mp hk
    have hq : ¬ (0 : ℚ) ≤ (k : ℚ) / 6 := by
      rw [not_le]
      exact div_neg_of_neg_of_pos (by exact_mod_cast hk0) (by norm_num)
    have hneg : -((k : ℚ) / 6) = ((-k : ℤ) : ℚ) / 6 := by push_cast; ring
    have hval : std.fmod (k : ℚ) 6 = ((-((-k) % 6) : ℤ) : ℚ) := by
      simp only [std.fmod, std.trunc, if_neg hq, hneg, hdiv]
      have := Int.emod_add_ediv (-k) 6
      have hc : (((-k) % 6 : ℤ) : ℚ) + 6 * (((-k) / 6 : ℤ) : ℚ) = ((-k : ℤ) : ℚ) := by
        exact_mod_cast this
      push_cast at hc ⊢
      linarith
    rw [hval, trunc_intCast]

theorem round_of_near (k : ℤ) (x : ℚ) (h : |x - k| < 1 / 2) : std.round x = k := by
  rw [abs_lt] at h
  obtain ⟨h1, h2⟩ := h
  unfold std.round
  split_ifs with hx
  · have : ⌊x + 1 / 2⌋ = k := by
      rw [Int.floor_eq_iff]
      constructor <;> linarith
    rw [this]
  · have : ⌊-x + 1 / 2⌋ = -k := by
      rw [Int.floor_eq_iff]
      push_cast
      constructor <;> linarith
    rw [this]
    push_cast
    ring

/-- The index the program computes for an angle strictly closer than half a
tile spacing to the `k`-th multiple of the spacing. -/
theorem tileIndex_of_near (k : ℤ) (angle : ℚ)
    (h : |angle - k * (TWO_PI / 6)| < TWO_PI / 12) :
    tileIndex angle = if 0 ≤ k then k % 6 else -((-k) % 6) := by
  have hT := TWO_PI_pos
  have hx : |angle / TWO_PI * 6 - k| < 1 / 2 := by
    have he : angle / TWO_PI * 6 - k = (angle - k * (TWO_PI / 6)) * (6 / TWO_PI) := by
      field_simp
      ring
    rw [he, abs_mul, abs_of_pos (by positivity : (0 : ℚ) < 6 / TWO_PI)]
    calc |angle - k * (TWO_PI / 6)| * (6 / TWO_PI)
        < TWO_PI / 12 * (6 / TWO_PI) := mul_lt_mul_of_pos_right h (by positivity)
      _ = 1 / 2 := by field_simp; ring
  unfold tileIndex
  rw [round_of_near k _ hx, trunc_fmod_intCast]

/-- For an angle in `[0, 2π)` the program's index is the residue of the
nearest multiple `k` of the tile spacing, `0 ≤ k ≤ 6`. -/
theorem tileIndex_of_range (angle : ℚ) (h0 : 0 ≤ angle) (h1 : angle < TWO_PI) :
    ∃ k : ℤ, 0 ≤ k ∧ k ≤ 6 ∧ |angle - k * (TWO_PI / 6)| ≤ TWO_PI / 12 ∧
      tileIndex angle = k % 6 := by
  have hT := TWO_PI_pos
  have hx0 : 0 ≤ angle / TWO_PI * 6 := by positivity
  have hx6 : angle / TWO_PI * 6 < 6 := by
    have : angle / TWO_PI < 1 := (div_lt_one hT).mpr h1
    linarith
  have hk0 : 0 ≤ ⌊angle / TWO_PI * 6 + 1 / 2⌋ := Int.floor_nonneg.mpr (by linarith)
  have hk6 : ⌊angle / TWO_PI * 6 + 1 / 2⌋ < 7 := Int.floor_lt.mpr (by push_cast; linarith)
  have hlo : ((⌊angle / TWO_PI * 6 + 1 / 2⌋ : ℤ) : ℚ) ≤ angle / TWO_PI * 6 + 1 / 2 :=
    Int.floor_le _
  have hhi : angle / TWO_PI * 6 + 1 / 2 < ((⌊angle / TWO_PI * 6 + 1 / 2⌋ : ℤ) : ℚ) + 1 :=
    Int.lt_floor_add_one _
  refine ⟨⌊angle / TWO_PI * 6 + 1 / 2⌋, hk0, by omega, ?_, ?_⟩
  · have he : angle - (⌊angle / TWO_PI * 6 + 1 / 2⌋ : ℚ) * (TWO_PI / 6) =
        (angle / TWO_PI * 6 - (⌊angle / TWO_PI * 6 + 1 / 2⌋ : ℚ)) * (TWO_PI / 6) := by
      generalize (⌊angle / TWO_PI * 6 + 1 / 2⌋ : ℚ) = c
      field_simp
      ring
    rw [he, abs_mul, abs_of_pos (by positivity : (0 : ℚ) < TWO_PI / 6)]
    have hab : |angle / TWO_PI * 6 - (⌊angle / TWO_PI * 6 + 1 / 2⌋ : ℚ)| ≤ 1 / 2 := by
      rw [abs_le]
      constructor <;> linarith
    calc |angle / TWO_PI * 6 - (⌊angle / TWO_PI * 6 + 1 / 2⌋ : ℚ)| * (TWO_PI / 6)
        ≤ 1 / 2 * (TWO_PI / 6) := mul_le_mul_of_nonneg_right hab (by positivity)
      _ = TWO_PI / 12 := by ring
  · have hr : std.round (angle / TWO_PI * 6) = ((⌊angle / TWO_PI * 6 + 1 / 2⌋ : ℤ) : ℚ) := by
      simp [std.round, hx0]
    unfold tileIndex
    rw [hr, trunc_fmod_intCast, if_pos hk0]

theorem tileIndex_bounds (angle : ℚ) (h0 : 0 ≤ angle) (h1 : angle < TWO_PI) :
    0 ≤ tileIndex angle ∧ tileIndex angle < 6 := by
  obtain ⟨k, _, _, _, hk⟩ := tileIndex_of_range angle h0 h1
  rw [hk]
  omega

/-! ## Frames and input events -/

theorem update_quiet (m : Mode) (frameTime : ℚ) (h : frameTime - m.data.lastCrankTime ≤ 300) :
    update m frameTime =
      { m with data := { m.data with wheel := m.data.wheel.step, lastFrameTime := frameTime } } := by
  unfold update
  dsimp only
  rw [if_neg (not_lt.mpr h)]

theorem update_fire (m : Mode) (frameTime : ℚ) (h : 300 < frameTime - m.data.lastCrankTime) :
    update m frameTime =
      { data := { m.data with
                    timeline := m.data.timeline ++ highlight (tileIndex m.data.wheel.step.angle),
                    wheel := m.data.wheel.step.spring
                      ((tileIndex m.data.wheel.step.angle : ℚ) / 6 * TWO_PI) (1 / 5),
                    lastFrameTime := frameTime },
        wheelIsMoving := false } := by
  unfold update
  dsimp only
  rw [if_pos h]

theorem rotary_changed_wheel (m : Mode) (delta : ℤ) (now : ℚ) :
    (rotary_changed m delta now).data.wheel =
      { m.data.wheel with angle := m.data.wheel.angle + (delta : ℚ) * (1 / 50) } := by
  unfold rotary_changed
  dsimp only
  split_ifs <;> rfl

theorem rotary_changed_lastCrankTime (m : Mode) (delta : ℤ) (now : ℚ) :
    (rotary_changed m delta now).data.lastCrankTime = now := by
  unfold rotary_changed
  dsimp only
  split_ifs <;> rfl

theorem rotary_changed_timeline (m : Mode) (delta : ℤ) (now : ℚ) (h : m.wheelIsMoving = false) :
    (rotary_changed m delta now).data.timeline =
      m.data.timeline ++ (dim 0 ++ dim 1 ++ dim 2 ++ dim 3 ++ dim 4 ++ dim 5) := by
  unfold rotary_changed
  dsimp only
  rw [h]
  simp [List.range_succ]

/-- Frames that all come within the debounce window only step the wheel. -/
theorem frames_quiet (times : List ℚ) (m : Mode)
    (h : ∀ t ∈ times, t - m.data.lastCrankTime ≤ 300) :
    (frames m times).data.wheel = AngularParticle.step^[times.length] m.data.wheel ∧
      (frames m times).data.timeline = m.data.timeline ∧
      (frames m times).data.lastCrankTime = m.data.lastCrankTime ∧
      (frames m times).wheelIsMoving = m.wheelIsMoving := by
  induction times generalizing m with
  | nil => simp [frames]
  | cons t ts ih =>
    have ht : t - m.data.lastCrankTime ≤ 300 := h t (List.mem_cons_self t ts)
    have hstep : frames m (t :: ts) = frames (update m t) ts := rfl
    have hu := update_quiet m t ht
    have hrest : ∀ u ∈ ts, u - (update m t).data.lastCrankTime ≤ 300 := by
      intro u hu'
      rw [hu]
      exact h u (List.mem_cons_of_mem t hu')
    obtain ⟨h1, h2, h3, h4⟩ := ih (update m t) hrest
    rw [hstep, h1, h2, h3, h4, hu]
    simp [Function.iterate_succ_apply]

/-- C3: evaluation of the program at the failing input. From the wheel at
rest at angle `0` with friction `0.2`, `rotary_changed(-200)` followed by a
frame 301 ms later computes the tile index `-1`, and the highlight ramps are
requested on tile `-1`, outside the six-element array. -/
theorem C3_large_negative_delta_index :
    (0 : ℚ) ≤ 0 ∧ (0 : ℚ) < TWO_PI ∧ (300 : ℚ) < 301 - 0 ∧
      tileIndex (rotary_changed { data := { wheel := ⟨0, 0, 1 / 5⟩ } } (-200) 0).data.wheel.step.angle
        = -1 ∧
      (update (rotary_changed { data := { wheel := ⟨0, 0, 1 / 5⟩ } } (-200) 0) 301).data.timeline
        = (rotary_changed { data := { wheel := ⟨0, 0, 1 / 5⟩ } } (-200) 0).data.timeline
            ++ highlight (-1) := by
  have hidx : tileIndex
      (rotary_changed { data := { wheel := ⟨0, 0, 1 / 5⟩ } } (-200) 0).data.wheel.step.angle
        = -1 := by
    rw [rotary_changed_wheel, step_angle]
    norm_num [tileIndex, std.round, std.fmod, std.trunc, TWO_PI, M_PI]
  refine ⟨le_refl 0, TWO_PI_pos, by norm_num, hidx, ?_⟩
  rw [update_fire _ _ (by rw [rotary_changed_lastCrankTime]; norm_num)]
  dsimp only
  rw [hidx]

/-- C7: evaluation of the program at `rotary_changed(-200)` from the wheel at
rest at angle `0` with friction `0.2`. The first `step()` leaves the angle
`2π - 7.2`, which is within `0.2` of `-1 · (2π/6)`, and `0.2 < π/6`; the index
expression of `update()` gives `-1` there, while `-1 mod 6` is `5`. -/
theorem C7_negative_multiple_index :
    (rotary_changed { data := { wheel := ⟨0, 0, 1 / 5⟩ } } (-200) 0).data.wheel.step.angle
        = TWO_PI - 36 / 5 ∧
      |(TWO_PI - 36 / 5) - ((-1 : ℤ) : ℚ) * (TWO_PI / 6)| ≤ 1 / 5 ∧
      (1 / 5 : ℚ) < TWO_PI / 12 ∧
      tileIndex (TWO_PI - 36 / 5) = -1 ∧ (-1 : ℤ) % 6 = 5 := by
  refine ⟨?_, ?_, ?_, ?_, by decide⟩
  · rw [rotary_changed_wheel, step_angle]
    norm_num [std.fmod, std.trunc, TWO_PI, M_PI]
  · rw [abs_le]
    norm_num [TWO_PI, M_PI]
  · norm_num [TWO_PI, M_PI]
  · have := tileIndex_of_near (-1) (TWO_PI - 36 / 5) (by rw [abs_lt]; norm_num [TWO_PI, M_PI])
    simpa using this

/-- C10 (counterexample): a frame entered with `wheelIsMoving` false, one
second after the last input, with the wheel at rest at angle `0.2`, requests
the two highlight ramps on tile 0 and calls `spring`: the angle ends at `0.16`
where `step()` alone leaves `0.2`. -/
theorem C10_settle_runs_when_not_moving :
    ({ data := { wheel := ⟨1 / 5, 1 / 5, 1 / 5⟩ } } : Mode).wheelIsMoving = false ∧
      (update { data := { wheel := ⟨1 / 5, 1 / 5, 1 / 5⟩ } } 1000).data.timeline = highlight 0 ∧
      (AngularParticle.step ⟨1 / 5, 1 / 5, 1 / 5⟩).angle = 1 / 5 ∧
      (update { data := { wheel := ⟨1 / 5, 1 / 5, 1 / 5⟩ } } 1000).data.wheel.angle = 4 / 25 := by
  have hstep : AngularParticle.step ⟨1 / 5, 1 / 5, 1 / 5⟩ = ⟨1 / 5, 1 / 5, 1 / 5⟩ := by
    rw [step_of_no_wrap _ (by norm_num) (by norm_num [TWO_PI, M_PI])]
    norm_num
  have hidx : tileIndex (1 / 5) = 0 := by
    have := tileIndex_of_near 0 (1 / 5) (by norm_num [TWO_PI, M_PI, abs_of_nonneg])
    simpa using this
  rw [update_fire _ _ (by norm_num)]
  dsimp only
  rw [hstep]
  dsimp only
  rw [hidx]
  refine ⟨rfl, by simp, rfl, ?_⟩
  norm_num [AngularParticle.spring, std.abs, TWO_PI, M_PI, abs_of_nonneg, abs_of_neg]

/-- C10 (amended): an `update()` frame performs the settle action exactly when
more than 300 ms have elapsed since the last input, whatever `wheelIsMoving`
is on entry. In a frame with at most 300 ms elapsed no ramp is requested,
`spring` is not called, the wheel is changed by `step()` only and
`wheelIsMoving` is kept; in a frame with more than 300 ms elapsed the two
highlight ramps are requested on the computed tile, `spring` is called toward
its angle with power `0.2`, and `wheelIsMoving` becomes false. -/
theorem C10_settle_gated_by_elapsed (m : Mode) (frameTime : ℚ) :
    (frameTime - m.data.lastCrankTime ≤ 300 →
        (update m frameTime).data.timeline = m.data.timeline ∧
        (update m frameTime).data.wheel = m.data.wheel.step ∧
        (update m frameTime).wheelIsMoving = m.wheelIsMoving) ∧
      (300 < frameTime - m.data.lastCrankTime →
        (update m frameTime).data.timeline =
          m.data.timeline ++ highlight (tileIndex m.data.wheel.step.angle) ∧
        (update m frameTime).data.wheel =
          m.data.wheel.step.spring
            ((tileIndex m.data.wheel.step.angle : ℚ) / 6 * TWO_PI) (1 / 5) ∧
        (update m frameTime).wheelIsMoving = false) := by
  constructor
  · intro h
    rw [update_quiet m frameTime h]
    exact ⟨rfl, rfl, rfl⟩
  · intro h
    rw [update_fire m frameTime h]
    exact ⟨rfl, rfl, rfl⟩

/-- C10 (witness): a moving wheel 200 ms after the input and an idle wheel 400 ms after it. -/
theorem C10_settle_gated_by_elapsed_witness :
    (update { data := { wheel := ⟨1, 0, 1 / 5⟩ }, wheelIsMoving := true } 200).data.timeline = [] ∧
      (update { data := { wheel := ⟨1, 0, 1 / 5⟩ }, wheelIsMoving := false } 400).data.timeline =
        highlight (tileIndex (AngularParticle.step ⟨1, 0, 1 / 5⟩).angle) :=
  ⟨((C10_settle_gated_by_elapsed
      { data := { wheel := ⟨1, 0, 1 / 5⟩ }, wheelIsMoving := true } 200).1 (by norm_num)).1,
   ((C10_settle_gated_by_elapsed
      { data := { wheel := ⟨1, 0, 1 / 5⟩ }, wheelIsMoving := false } 400).2 (by norm_num)).1⟩

/-! ## The `+10` scenario -/

/-- One `step()` of the wheel coasting after the `+10` input: the angles
follow `1 - 0.8^n`. -/
theorem step_coasting (n : ℕ) :
    AngularParticle.step ⟨1 - (4 / 5) ^ (n + 1), 1 - (4 / 5) ^ n, 1 / 5⟩ =
      ⟨1 - (4 / 5) ^ (n + 2), 1 - (4 / 5) ^ (n + 1), 1 / 5⟩ := by
  have hq0 : (0 : ℚ) < (4 / 5) ^ n := by positivity
  have hq1 : ((4 : ℚ) / 5) ^ n ≤ 1 := pow_le_one₀ (by norm_num) (by norm_num)
  have hT : (1 : ℚ) < TWO_PI := by norm_num [TWO_PI, M_PI]
  have e1 : ((4 : ℚ) / 5) ^ (n + 1) = (4 / 5) ^ n * (4 / 5) := pow_succ _ _
  have e2 : ((4 : ℚ) / 5) ^ (n + 2) = (4 / 5) ^ n * (16 / 25) := by
    rw [pow_add]
    norm_num
  rw [step_of_no_wrap]
  · simp only [AngularParticle.mk.injEq, and_true, true_and]
    rw [e1, e2]
    ring
  · dsimp only
    rw [e1]
    nlinarith
  · dsimp only
    rw [e1]
    nlinarith

theorem iterate_step_coasting (n : ℕ) :
    AngularParticle.step^[n] ⟨1 / 5, 0, 1 / 5⟩ =
      ⟨1 - (4 / 5) ^ (n + 1), 1 - (4 / 5) ^ n, 1 / 5⟩ := by
  induction n with
  | zero => norm_num
  | succ n ih => rw [Function.iterate_succ_apply', ih, step_coasting]

theorem tileIndex_coasting (n : ℕ) :
    tileIndex (1 - (4 / 5) ^ (n + 2)) = if n ≤ 1 then 0 else 1 := by
  split_ifs with hn
  · have h0 := tileIndex_of_near 0
    interval_cases n
    · have := h0 (1 - (4 / 5) ^ (0 + 2)) (by norm_num [TWO_PI, M_PI, abs_of_nonneg])
      simpa using this
    · have := h0 (1 - (4 / 5) ^ (1 + 2)) (by norm_num [TWO_PI, M_PI, abs_of_nonneg])
      simpa using this
  · have hq0 : (0 : ℚ) < (4 / 5) ^ (n + 2) := by positivity
    have hq4 : ((4 : ℚ) / 5) ^ (n + 2) ≤ (4 / 5) ^ 4 :=
      pow_le_pow_of_le_one (by norm_num) (by norm_num) (by omega)
    have hnear : |(1 - ((4 : ℚ) / 5) ^ (n + 2)) - ((1 : ℤ) : ℚ) * (TWO_PI / 6)| < TWO_PI / 12 := by
      rw [abs_lt]
      norm_num [TWO_PI, M_PI] at hq4 ⊢
      constructor <;> linarith
    have := tileIndex_of_near 1 _ hnear
    simpa using this

/-- The wheel and the timeline after `rotary_changed(+10)` on the wheel at
rest at `0` and any frames that all fall inside the debounce window. -/
theorem frames_after_ten (m : Mode) (now : ℚ) (times : List ℚ)
    (hw : m.data.wheel = ⟨0, 0, 1 / 5⟩) (hq : ∀ t ∈ times, t - now ≤ 300) :
    (frames (rotary_changed m 10 now) times).data.wheel =
        ⟨1 - (4 / 5) ^ (times.length + 1), 1 - (4 / 5) ^ times.length, 1 / 5⟩ ∧
      (frames (rotary_changed m 10 now) times).data.timeline =
        (rotary_changed m 10 now).data.timeline ∧
      (frames (rotary_changed m 10 now) times).data.lastCrankTime = now := by
  have hq2 : ∀ t ∈ times, t - (rotary_changed m 10 now).data.lastCrankTime ≤ 300 := by
    rw [rotary_changed_lastCrankTime]
    exact hq
  obtain ⟨h1, h2, h3, _⟩ := frames_quiet times (rotary_changed m 10 now) hq2
  have hw1 : (rotary_changed m 10 now).data.wheel = ⟨1 / 5, 0, 1 / 5⟩ := by
    rw [rotary_changed_wheel, hw]
    norm_num
  refine ⟨?_, h2, ?_⟩
  · rw [h1, hw1, iterate_step_coasting]
  · rw [h3, rotary_changed_lastCrankTime]

/-- C8 (counterexample): from the wheel at rest at `0` with friction `0.2`,
`rotary_changed(+10)` at time 0, two frames inside the window (at 100 ms and
200 ms) and the frame at 400 ms on which the debounce fires: that frame
computes tile index `1` and requests the highlight ramps on tile 1. -/
theorem C8_two_frames_then_fire_picks_tile_one :
    (∀ t ∈ ([100, 200] : List ℚ), t - 0 ≤ 300) ∧ (300 : ℚ) < 400 - 0 ∧
      tileIndex (frames (rotary_changed { data := { wheel := ⟨0, 0, 1 / 5⟩ } } 10 0)
        [100, 200]).data.wheel.step.angle = 1 ∧
      (update (frames (rotary_changed { data := { wheel := ⟨0, 0, 1 / 5⟩ } } 10 0) [100, 200])
        400).data.timeline =
        (rotary_changed { data := { wheel := ⟨0, 0, 1 / 5⟩ } } 10 0).data.timeline
          ++ highlight 1 := by
  have hq : ∀ t ∈ ([100, 200] : List ℚ), t - 0 ≤ 300 := by
    intro t ht
    simp only [List.mem_cons, List.mem_singleton, List.not_mem_nil, or_false] at ht
    rcases ht with rfl | rfl <;> norm_num
  obtain ⟨h1, h2, h3⟩ := frames_after_ten { data := { wheel := ⟨0, 0, 1 / 5⟩ } } 0 [100, 200] rfl hq
  have hidx : tileIndex (frames (rotary_changed { data := { wheel := ⟨0, 0, 1 / 5⟩ } } 10 0)
      [100, 200]).data.wheel.step.angle = 1 := by
    rw [h1, step_coasting]
    exact tileIndex_coasting 2
  refine ⟨hq, by norm_num, hidx, ?_⟩
  rw [update_fire _ _ (by rw [h3]; norm_num)]
  dsimp only
  rw [hidx, h2]

/-- C8 (amended): from the wheel at rest at angle `0` (`anglePrev = 0`,
friction `0.2`), `rotary_changed(+10)` makes the angle `0.2`; after `n` frames
inside the following 300 ms, in which no ramp is requested, the first frame on
which the debounce fires steps the angle to `1 - 0.8^(n+2)`, computes tile
index `0` when `n ≤ 1` and `1` when `n ≥ 2`, requests the highlight ramps on
that tile and calls `spring` toward that tile's angle with power `0.2`. -/
theorem C8_settle_after_ten (m : Mode) (now frameTime : ℚ) (times : List ℚ)
    (hw : m.data.wheel = ⟨0, 0, 1 / 5⟩)
    (hq : ∀ t ∈ times, t - now ≤ 300) (hfire : 300 < frameTime - now) :
    (rotary_changed m 10 now).data.wheel.angle = 1 / 5 ∧
      (frames (rotary_changed m 10 now) times).data.timeline =
        (rotary_changed m 10 now).data.timeline ∧
      (frames (rotary_changed m 10 now) times).data.wheel.step.angle =
        1 - (4 / 5) ^ (times.length + 2) ∧
      tileIndex (frames (rotary_changed m 10 now) times).data.wheel.step.angle =
        (if times.length ≤ 1 then 0 else 1) ∧
      (update (frames (rotary_changed m 10 now) times) frameTime).data.timeline =
        (frames (rotary_changed m 10 now) times).data.timeline
          ++ highlight (if times.length ≤ 1 then 0 else 1) ∧
      (update (frames (rotary_changed m 10 now) times) frameTime).data.wheel =
        (frames (rotary_changed m 10 now) times).data.wheel.step.spring
          (((if times.length ≤ 1 then 0 else 1 : ℤ) : ℚ) / 6 * TWO_PI) (1 / 5) := by
  obtain ⟨h1, h2, h3⟩ := frames_after_ten m now times hw hq
  have hang : (frames (rotary_changed m 10 now) times).data.wheel.step.angle =
      1 - (4 / 5) ^ (times.length + 2) := by
    rw [h1, step_coasting]
  have hidx : tileIndex (frames (rotary_changed m 10 now) times).data.wheel.step.angle =
      (if times.length ≤ 1 then 0 else 1) := by
    rw [hang]
    exact tileIndex_coasting times.length
  refine ⟨?_, h2, hang, hidx, ?_, ?_⟩
  · rw [rotary_changed_wheel, hw]
    norm_num
  · rw [update_fire _ _ (by rw [h3]; exact hfire)]
    dsimp only
    rw [hidx]
  · rw [update_fire _ _ (by rw [h3]; exact hfire)]
    dsimp only
    rw [hidx]

/-- C8 (witness): three frames inside the window, then the firing frame at 400 ms. -/
theorem C8_settle_after_ten_witness :
    tileIndex (frames (rotary_changed { data := { wheel := ⟨0, 0, 1 / 5⟩ } } 10 0)
        [16, 32, 48]).data.wheel.step.angle = (if [(16 : ℚ), 32, 48].length ≤ 1 then 0 else 1) :=
  (C8_settle_after_ten { data := { wheel := ⟨0, 0, 1 / 5⟩ } } 0 400 [16, 32, 48] rfl
    (by
      intro t ht
      simp only [List.mem_cons, List.mem_singleton, List.not_mem_nil, or_false] at ht
      rcases ht with rfl | rfl | rfl <;> norm_num)
    (by norm_num)).2.2.2.1

/-! ## The `+300` scenario -/

/-- A wheel turning forward keeps a non-negative velocity and angle under
repeated `step()` calls. -/
theorem iterate_step_forward (p : AngularParticle) (hf1 : p.friction ≤ 1)
    (hv : 0 ≤ p.velocity) (ha : 0 ≤ p.angle) (n : ℕ) :
    0 ≤ (AngularParticle.step^[n] p).velocity ∧ 0 ≤ (AngularParticle.step^[n] p).angle := by
  induction n with
  | zero => exact ⟨hv, ha⟩
  | succ n ih =>
    obtain ⟨ihv, iha⟩ := ih
    have h1f : 0 ≤ 1 - p.friction := by linarith
    rw [Function.iterate_succ_apply']
    constructor
    · rw [step_velocity, iterate_step_friction]
      exact mul_nonneg ihv h1f
    · rw [step_angle, iterate_step_friction]
      have hvel : 0 ≤ ((AngularParticle.step^[n] p).angle - (AngularParticle.step^[n] p).anglePrev)
          * (1 - p.friction) := mul_nonneg ihv h1f
      exact fmod_nonneg (by linarith [TWO_PI_pos]) TWO_PI_pos

/-- The ramp last requested on each output of each tile once all six tiles
were dimmed and tile `i` was then highlighted. -/
theorem lastRamp_dim_then_highlight (pre : List RampTo) (i j : ℤ)
    (hi0 : 0 ≤ i) (hi6 : i < 6) (hj0 : 0 ≤ j) (hj6 : j < 6) :
    lastRamp (pre ++ (dim 0 ++ dim 1 ++ dim 2 ++ dim 3 ++ dim 4 ++ dim 5) ++ highlight i) j true =
        (if j = i then some ⟨i, .color (1, 1, 0), 1 / 10⟩
          else some ⟨j, .color tileDefaultColor, 1 / 5⟩) ∧
      lastRamp (pre ++ (dim 0 ++ dim 1 ++ dim 2 ++ dim 3 ++ dim 4 ++ dim 5) ++ highlight i) j false =
        (if j = i then some ⟨i, .scale 1, 1 / 10⟩
          else some ⟨j, .scale (7 / 10), 1 / 5⟩) := by
  interval_cases i <;> interval_cases j <;>
    simp [lastRamp, dim, highlight, RampTo.onColor, List.find?_cons]

/-- The pull of `update()` toward the tile it picked: whether the nearest
multiple of the spacing is `k ≤ 5` or the seam `k = 6`, the angle moves a
fifth of the way to `k · (2π/6)`. -/
theorem spring_toward_tile (p : AngularParticle) (k : ℤ) (hk0 : 0 ≤ k) (hk6 : k ≤ 6)
    (hnear : |p.angle - k * (TWO_PI / 6)| ≤ TWO_PI / 12) :
    (p.spring (((k % 6 : ℤ) : ℚ) / 6 * TWO_PI) (1 / 5)).angle =
      p.angle + (k * (TWO_PI / 6) - p.angle) * (1 / 5) := by
  have hT := TWO_PI_pos
  rw [abs_le] at hnear
  obtain ⟨hlo, hhi⟩ := hnear
  unfold AngularParticle.spring std.abs
  dsimp only
  rcases (by omega : k < 6 ∨ k = 6) with hlt | rfl
  · rw [Int.emod_eq_of_lt hk0 hlt]
    have ht : (k : ℚ) / 6 * TWO_PI = k * (TWO_PI / 6) := by ring
    rw [ht]
    have hsmall : |(k : ℚ) * (TWO_PI / 6) - p.angle| ≤ TWO_PI / 12 :=
      abs_le.mpr ⟨by linarith, by linarith⟩
    have hbig : |p.angle - ((k : ℚ) * (TWO_PI / 6) + TWO_PI)|
        = (k : ℚ) * (TWO_PI / 6) + TWO_PI - p.angle := by
      rw [abs_of_nonpos (by linarith)]
      ring
    have hnot : ¬ |p.angle - ((k : ℚ) * (TWO_PI / 6) + TWO_PI)|
        < |(k : ℚ) * (TWO_PI / 6) - p.angle| := by
      rw [not_lt, hbig]
      linarith
    rw [if_neg hnot]
  · have ht : (((6 : ℤ) % 6 : ℤ) : ℚ) / 6 * TWO_PI = 0 := by norm_num
    rw [ht]
    push_cast at hlo hhi
    have hsmall : |p.angle - (0 + TWO_PI)| ≤ TWO_PI / 12 :=
      abs_le.mpr ⟨by linarith, by linarith⟩
    have hbig : |0 - p.angle| = p.angle := by
      rw [abs_of_nonpos (by linarith)]
      ring
    have hyes : |p.angle - (0 + TWO_PI)| < |0 - p.angle| := by
      rw [hbig]
      linarith
    rw [if_pos hyes]
    push_cast
    ring

/-- C9 (amended): for every trace that starts settled (`wheelIsMoving` false,
wheel at rest with angle in `[0, 2π)`, friction in `[0, 1]`), applies
`rotary_changed(+300)` and runs any number of frames inside the 300 ms window,
the first frame on which the debounce fires requests the highlight ramps
(color → (1,1,0), scale → 1.0) on exactly one tile `i` in `0..5`, the tile
nearest the angle both before and after that frame's `spring`; at that moment
the ramps requested since the start are the six dimming pairs followed by this
one highlight pair, so every other tile's most recent ramps are still the
dimming ones (color → (0,1,1), scale → 0.7). -/
theorem C9_first_settle_highlights_one_tile (m : Mode) (now frameTime : ℚ) (times : List ℚ)
    (hidle : m.wheelIsMoving = false)
    (hrest : m.data.wheel.anglePrev = m.data.wheel.angle)
    (ha0 : 0 ≤ m.data.wheel.angle) (ha1 : m.data.wheel.angle < TWO_PI)
    (hf0 : 0 ≤ m.data.wheel.friction) (hf1 : m.data.wheel.friction ≤ 1)
    (hq : ∀ t ∈ times, t - now ≤ 300) (hfire : 300 < frameTime - now) :
    ∃ i k : ℤ, 0 ≤ i ∧ i < 6 ∧ i = k % 6 ∧
      tileIndex (frames (rotary_changed m 300 now) times).data.wheel.step.angle = i ∧
      |(frames (rotary_changed m 300 now) times).data.wheel.step.angle - k * (TWO_PI / 6)|
        ≤ TWO_PI / 12 ∧
      |(update (frames (rotary_changed m 300 now) times) frameTime).data.wheel.angle
          - k * (TWO_PI / 6)| ≤ TWO_PI / 12 ∧
      (update (frames (rotary_changed m 300 now) times) frameTime).data.timeline =
        m.data.timeline ++ (dim 0 ++ dim 1 ++ dim 2 ++ dim 3 ++ dim 4 ++ dim 5) ++ highlight i ∧
      (update (frames (rotary_changed m 300 now) times) frameTime).wheelIsMoving = false ∧
      ∀ j : ℤ, 0 ≤ j → j < 6 →
        lastRamp (update (frames (rotary_changed m 300 now) times) frameTime).data.timeline j true =
            (if j = i then some ⟨i, .color (1, 1, 0), 1 / 10⟩
              else some ⟨j, .color tileDefaultColor, 1 / 5⟩) ∧
          lastRamp (update (frames (rotary_changed m 300 now) times) frameTime).data.timeline j false =
            (if j = i then some ⟨i, .scale 1, 1 / 10⟩
              else some ⟨j, .scale (7 / 10), 1 / 5⟩) := by
  have hT := TWO_PI_pos
  have hq2 : ∀ t ∈ times, t - (rotary_changed m 300 now).data.lastCrankTime ≤ 300 := by
    rw [rotary_changed_lastCrankTime]
    exact hq
  obtain ⟨h1, h2, h3, _⟩ := frames_quiet times (rotary_changed m 300 now) hq2
  rw [rotary_changed_lastCrankTime] at h3
  rw [rotary_changed_timeline m 300 now hidle] at h2
  -- the wheel right after the input turns forward
  have hfr : (rotary_changed m 300 now).data.wheel.friction = m.data.wheel.friction := by
    rw [rotary_changed_wheel]
  have hv0 : 0 ≤ (rotary_changed m 300 now).data.wheel.velocity := by
    rw [rotary_changed_wheel]
    simp only [AngularParticle.velocity]
    rw [hrest]
    norm_num
  have hp0 : 0 ≤ (rotary_changed m 300 now).data.wheel.angle := by
    rw [rotary_changed_wheel]
    dsimp only
    push_cast
    linarith
  obtain ⟨hv, hp⟩ := iterate_step_forward (rotary_changed m 300 now).data.wheel
    (by rw [hfr]; exact hf1) hv0 hp0 times.length
  rw [← h1] at hv hp
  have hfr2 : (frames (rotary_changed m 300 now) times).data.wheel.friction
      = m.data.wheel.friction := by
    rw [h1, iterate_step_friction, hfr]
  -- the angle the firing frame computes its index from
  have hadv : 0 ≤ (frames (rotary_changed m 300 now) times).data.wheel.angle
      + ((frames (rotary_changed m 300 now) times).data.wheel.angle
        - (frames (rotary_changed m 300 now) times).data.wheel.anglePrev)
        * (1 - (frames (rotary_changed m 300 now) times).data.wheel.friction) + TWO_PI := by
    have : 0 ≤ ((frames (rotary_changed m 300 now) times).data.wheel.angle
        - (frames (rotary_changed m 300 now) times).data.wheel.anglePrev)
        * (1 - (frames (rotary_changed m 300 now) times).data.wheel.friction) := by
      rw [hfr2]
      exact mul_nonneg hv (by linarith)
    linarith
  have hang : 0 ≤ (frames (rotary_changed m 300 now) times).data.wheel.step.angle ∧
      (frames (rotary_changed m 300 now) times).data.wheel.step.angle < TWO_PI := by
    rw [step_angle]
    exact ⟨fmod_nonneg hadv hT, fmod_lt hadv hT⟩
  obtain ⟨k, hk0, hk6, hnear, hidx⟩ := tileIndex_of_range _ hang.1 hang.2
  have hfireq := update_fire (frames (rotary_changed m 300 now) times) frameTime
    (by rw [h3]; exact hfire)
  have hi0 : 0 ≤ k % 6 := Int.emod_nonneg k (by norm_num)
  have hi6 : k % 6 < 6 := Int.emod_lt_of_pos k (by norm_num)
  refine ⟨k % 6, k, hi0, hi6, rfl, hidx, hnear, ?_, ?_, ?_, ?_⟩
  · rw [hfireq]
    dsimp only
    rw [hidx, spring_toward_tile _ k hk0 hk6 hnear]
    rw [abs_le] at hnear ⊢
    constructor <;> linarith
  · rw [hfireq]
    dsimp only
    rw [hidx, h2]
  · rw [hfireq]
  · intro j hj0 hj6
    rw [hfireq]
    dsimp only
    rw [hidx, h2]
    exact lastRamp_dim_then_highlight m.data.timeline (k % 6) j hi0 hi6 hj0 hj6

/-- C9 (witness): two frames inside the window, then the firing frame at 400 ms. -/
theorem C9_first_settle_highlights_one_tile_witness :
    ∃ i : ℤ, 0 ≤ i ∧ i < 6 ∧
      tileIndex (frames (rotary_changed { data := { wheel := ⟨0, 0, 1 / 5⟩ } } 300 0)
        [100, 200]).data.wheel.step.angle = i ∧
      (update (frames (rotary_changed { data := { wheel := ⟨0, 0, 1 / 5⟩ } } 300 0) [100, 200])
        400).data.timeline =
        [] ++ (dim 0 ++ dim 1 ++ dim 2 ++ dim 3 ++ dim 4 ++ dim 5) ++ highlight i := by
  obtain ⟨i, k, h0, h6, _, hidx, _, _, htl, _⟩ :=
    C9_first_settle_highlights_one_tile { data := { wheel := ⟨0, 0, 1 / 5⟩ } } 0 400 [100, 200]
      rfl rfl (by norm_num) (by norm_num [TWO_PI, M_PI]) (by norm_num) (by norm_num)
      (by
        intro t ht
        simp only [List.mem_cons, List.mem_singleton, List.not_mem_nil, or_false] at ht
        rcases ht with rfl | rfl <;> norm_num)
      (by norm_num)
  exact ⟨i, h0, h6, hidx, htl⟩

/-- C9 (counterexample): from the settled wheel at angle `0` with friction
`0.2`, `rotary_changed(+300)` at time 0 and frames at 400 ms and 500 ms. The
debounce fires on both frames: the first requests the highlight ramps on tile
4, the second on tile 2, so two tiles have been given the highlight ramp and
for both of them it is the most recent one. -/
theorem C9_two_firing_frames_highlight_two_tiles :
    ({ data := { wheel := ⟨0, 0, 1 / 5⟩ } } : Mode).wheelIsMoving = false ∧
      (frames (rotary_changed { data := { wheel := ⟨0, 0, 1 / 5⟩ } } 300 0) [400, 500]).data.timeline
        = (dim 0 ++ dim 1 ++ dim 2 ++ dim 3 ++ dim 4 ++ dim 5) ++ highlight 4 ++ highlight 2 ∧
      lastRamp (frames (rotary_changed { data := { wheel := ⟨0, 0, 1 / 5⟩ } } 300 0)
        [400, 500]).data.timeline 4 true = some ⟨4, .color (1, 1, 0), 1 / 10⟩ ∧
      lastRamp (frames (rotary_changed { data := { wheel := ⟨0, 0, 1 / 5⟩ } } 300 0)
        [400, 500]).data.timeline 2 true = some ⟨2, .color (1, 1, 0), 1 / 10⟩ := by
  have hXw : (rotary_changed { data := { wheel := ⟨0, 0, 1 / 5⟩ } } 300 0).data.wheel
      = ⟨6, 0, 1 / 5⟩ := by
    rw [rotary_changed_wheel]
    norm_num
  have hXt := rotary_changed_timeline { data := { wheel := ⟨0, 0, 1 / 5⟩ } } 300 0 rfl
  have hXc := rotary_changed_lastCrankTime { data := { wheel := ⟨0, 0, 1 / 5⟩ } } 300 0
  have hs1 : AngularParticle.step ⟨6, 0, 1 / 5⟩ = ⟨54 / 5 - TWO_PI, 6 - TWO_PI, 1 / 5⟩ := by
    norm_num [AngularParticle.step, std.fmod, std.trunc, TWO_PI, M_PI]
  have hi1 : tileIndex (54 / 5 - TWO_PI) = 4 := by
    have := tileIndex_of_near 4 (54 / 5 - TWO_PI) (by rw [abs_lt]; norm_num [TWO_PI, M_PI])
    simpa using this
  have hsp : AngularParticle.spring ⟨54 / 5 - TWO_PI, 6 - TWO_PI, 1 / 5⟩
      (((4 : ℤ) : ℚ) / 6 * TWO_PI) (1 / 5) = ⟨216 / 25 - 2 * TWO_PI / 3, 6 - TWO_PI, 1 / 5⟩ := by
    norm_num [AngularParticle.spring, std.abs, TWO_PI, M_PI, abs_lt, abs_of_nonneg, abs_of_neg]
  have hs2 : (AngularParticle.step ⟨216 / 25 - 2 * TWO_PI / 3, 6 - TWO_PI, 1 / 5⟩).angle
      = 1344 / 125 - 7 * TWO_PI / 5 := by
    rw [step_angle]
    norm_num [std.fmod, std.trunc, TWO_PI, M_PI]
  have hi2 : tileIndex (1344 / 125 - 7 * TWO_PI / 5) = 2 := by
    have := tileIndex_of_near 2 (1344 / 125 - 7 * TWO_PI / 5)
      (by rw [abs_lt]; norm_num [TWO_PI, M_PI])
    simpa using this
  have hu1 := update_fire (rotary_changed { data := { wheel := ⟨0, 0, 1 / 5⟩ } } 300 0) 400
    (by rw [hXc]; norm_num)
  rw [hXw, hs1] at hu1
  dsimp only at hu1
  rw [hi1, hsp, hXt] at hu1
  have hfr : frames (rotary_changed { data := { wheel := ⟨0, 0, 1 / 5⟩ } } 300 0) [400, 500]
      = update (update (rotary_changed { data := { wheel := ⟨0, 0, 1 / 5⟩ } } 300 0) 400) 500 := rfl
  have htl : (frames (rotary_changed { data := { wheel := ⟨0, 0, 1 / 5⟩ } } 300 0)
      [400, 500]).data.timeline
        = (dim 0 ++ dim 1 ++ dim 2 ++ dim 3 ++ dim 4 ++ dim 5) ++ highlight 4 ++ highlight 2 := by
    rw [hfr, update_fire _ 500 (by rw [hu1, hXc]; norm_num), hu1]
    dsimp only
    rw [hs2, hi2]
    simp
  refine ⟨rfl, htl, ?_, ?_⟩
  · rw [htl]
    simp [lastRamp, dim, highlight, RampTo.onColor, List.find?_cons]
  · rw [htl]
    simp [lastRamp, dim, highlight, RampTo.onColor, List.find?_cons]

end OttoMenu
